import Mathlib

/-!
Verification of the overlapping sentence chunker and the ingestion/retrieval
logic of the rag-db2-llamacpp demo pipeline.

Strings are modelled as lists of characters (`List Char`); a sentence is such a
list, and the sentence sequence handed to the chunker is the output of the
external sentence segmenter after the strip/non-empty filter performed by the
source.  Python's `len(s.split())` is modelled by `wordCount`, Python's
`" ".join(l)` by `joinSp`.  The chunker's `while` loop is embedded with an
explicit fuel parameter: `none` means the loop did not finish within the given
fuel, and a result that is `none` for every fuel is a non-terminating run.
-/

/-- Words of a string under Python `str.split()` semantics: maximal runs of
non-whitespace characters, in order.  The accumulator holds the current run
reversed. -/
def pyWordsAux : List Char → List Char → List (List Char)
  | [], acc => if acc.isEmpty then [] else [acc.reverse]
  | c :: rest, acc =>
    if c.isWhitespace then
      (if acc.isEmpty then pyWordsAux rest [] else acc.reverse :: pyWordsAux rest [])
    else pyWordsAux rest (c :: acc)

/-- Model of Python `s.split()` (no argument): the list of whitespace-separated
words of `s`, empty runs discarded. -/
def pyWords (s : List Char) : List (List Char) := pyWordsAux s []

/-- Model of Python `len(s.split())`, the word count used by the chunker. -/
def wordCount (s : List Char) : Nat := (pyWords s).length

/-- Total word count of a list of sentences. -/
def sumW (l : List (List Char)) : Nat := (l.map wordCount).sum

/-- Model of Python `" ".join(l)`. -/
def joinSp : List (List Char) → List Char
  | [] => []
  | [s] => s
  | s :: rest => s ++ ' ' :: joinSp rest

/-- Model of Python `s.strip()`: leading and trailing whitespace removed. -/
def pyStrip (s : List Char) : List Char :=
  ((s.dropWhile fun c => c.isWhitespace).reverse.dropWhile fun c => c.isWhitespace).reverse

/-- The preprocessing line of the source,
`[sent.text.strip() for sent in doc.sents if sent.text.strip()]`:
each raw sentence text is stripped and whitespace-only sentences are dropped
(the segmentation into raw sentence texts itself is the external spaCy
collaborator). -/
def preprocess (raw : List (List Char)) : List (List Char) :=
  ((raw.map pyStrip).filter fun s => ¬ s.isEmpty)

/-- The backward walk of the source that seeds the next buffer:
`while j >= 0 and overlap_len < overlap_words: overlap.insert(0, s); ...`.
The first argument list is the not-yet-visited part of the buffer reversed
(the walk goes from the last sentence towards the first), `ov` and `len` are
the overlap built so far and its word count. -/
def overlapRevAux (overlapW : Nat) : List (List Char) → List (List Char) → Nat →
    List (List Char) × Nat
  | [], ov, len => (ov, len)
  | s :: rest, ov, len =>
    if len < overlapW then overlapRevAux overlapW rest (s :: ov) (len + wordCount s)
    else (ov, len)

/-- Overlap seed recomputed from a just-closed buffer, as in the source. -/
def overlapOf (overlapW : Nat) (cur : List (List Char)) : List (List Char) × Nat :=
  overlapRevAux overlapW cur.reverse [] 0

/-- The `while i < len(sentences)` loop of `overlapping_sentence_chunker`,
with the remaining suffix `sentences[i:]` as `rem` (the index `i` only moves
forward), the accumulated `chunks`, the buffer `current_chunk` as `cur` and
`current_length` as `curLen`.  Fuel counts loop iterations; `none` means the
fuel was exhausted before the loop finished. -/
def chunkerLoop (maxW overlapW : Nat) :
    Nat → List (List Char) → List (List Char) → List (List Char) → Nat →
    Option (List (List Char))
  | fuel, rem, chunks, cur, curLen =>
    match rem with
    | [] => some (if cur.isEmpty then chunks else chunks ++ [joinSp cur])
    | s :: rest =>
      match fuel with
      | 0 => none
      | fuel + 1 =>
        if curLen + wordCount s ≤ maxW then
          chunkerLoop maxW overlapW fuel rest chunks (cur ++ [s]) (curLen + wordCount s)
        else
          chunkerLoop maxW overlapW fuel (s :: rest) (chunks ++ [joinSp cur])
            (overlapOf overlapW cur).1 (overlapOf overlapW cur).2

/-- `overlapping_sentence_chunker` from the source, given the segmented and
filtered sentence list: emitted chunks are the space-joins of the successive
buffers. -/
def overlapping_sentence_chunker (sentences : List (List Char))
    (maxW overlapW fuel : Nat) : Option (List (List Char)) :=
  chunkerLoop maxW overlapW fuel sentences [] [] 0

/-- Sentence-level instrumentation of `chunkerLoop`: identical control flow,
but each emitted chunk is kept as its list of sentences instead of being
joined into one string. -/
def chunkerLoopS (maxW overlapW : Nat) :
    Nat → List (List Char) → List (List (List Char)) → List (List Char) → Nat →
    Option (List (List (List Char)))
  | fuel, rem, chunks, cur, curLen =>
    match rem with
    | [] => some (if cur.isEmpty then chunks else chunks ++ [cur])
    | s :: rest =>
      match fuel with
      | 0 => none
      | fuel + 1 =>
        if curLen + wordCount s ≤ maxW then
          chunkerLoopS maxW overlapW fuel rest chunks (cur ++ [s]) (curLen + wordCount s)
        else
          chunkerLoopS maxW overlapW fuel (s :: rest) (chunks ++ [cur])
            (overlapOf overlapW cur).1 (overlapOf overlapW cur).2

/-- Sentence-level run of the chunker. -/
def chunkerS (sentences : List (List Char)) (maxW overlapW fuel : Nat) :
    Option (List (List (List Char))) :=
  chunkerLoopS maxW overlapW fuel sentences [] [] 0

/-- A run of the chunker that returns `none` at every fuel is an infinite
loop of the source program. -/
def divergesOn (sentences : List (List Char)) (maxW overlapW : Nat) : Prop :=
  ∀ fuel, overlapping_sentence_chunker sentences maxW overlapW fuel = none

/-- The four-word sentence of the spec test in section 8: S1..S5 are all this
string. -/
def sWord : List Char := "word word word word.".toList

/-- The five-sentence document of the spec test in section 8. -/
def exC6 : List (List Char) := List.replicate 5 sWord

/-- An eight-word sentence. -/
def sA : List Char := "a a a a a a a a".toList

/-- A five-word sentence. -/
def sB : List Char := "b b b b b".toList

/-- Two ordinary sentences (8 and 5 words, both under a max of 10). -/
def exC2 : List (List Char) := [sA, sB]

/-- A single sentence of 500 one-letter words. -/
def bigSentence : List Char := joinSp (List.replicate 500 ['w'])

/-- A document consisting of one 500-word sentence. -/
def exC3 : List (List Char) := [bigSentence]

/-- Overlap link between two consecutive chunks: some block of sentences is a
suffix of the earlier chunk, reappears byte-identically as the leading
sentences of the later chunk, and either carries at least `overlapW` words or
is the whole earlier chunk. -/
def pairOK (overlapW : Nat) (c₁ c₂ : List (List Char)) : Prop :=
  ∃ ov, ov <:+ c₁ ∧ ov <+: c₂ ∧ (overlapW ≤ sumW ov ∨ ov = c₁)

/-- Every chunk in the list is a contiguous slice of `sentences` starting at
or after position `lb`, and the start positions are non-decreasing along the
list. -/
def SlicesFrom (sentences : List (List Char)) :
    List (List (List Char)) → Nat → Prop
  | [], _ => True
  | c :: rest, lb =>
    ∃ a, lb ≤ a ∧ c = (sentences.drop a).take c.length ∧ SlicesFrom sentences rest a

/-- The ingestion filter of the source: for each (chunk, item) pair of
`zip(chunks, embeddings["data"])`, `embedding = item.get("embedding")` is
`none` when the key is missing, and the row is kept only
`if embedding and len(embedding) == 384` (Python truthiness: present and
non-empty); otherwise the row is skipped with a printed message and the loop
continues with the remaining rows.  Embedding components are modelled as
rationals; the textual rendering of a kept vector is not modelled. -/
def buildValues : List (List Char × Option (List ℚ)) → List (List Char × List ℚ)
  | [] => []
  | (text, emb) :: rest =>
    match emb with
    | none => buildValues rest
    | some e =>
      if ¬ e.isEmpty ∧ e.length = 384 then (text, e) :: buildValues rest
      else buildValues rest

/-- Squared Euclidean distance between two vectors, componentwise over the
common length. -/
def sqDist (u v : List ℚ) : ℚ :=
  (List.zipWith (fun a b => (a - b) * (a - b)) u v).sum

/-- Modelled from the spec: the database side of the retrieval step
(`SQL_DISTANCE`: VECTOR_DISTANCE with the EUCLIDEAN metric, ORDER BY DISTANCE
ASC, FETCH FIRST top_k ROWS ONLY) executes inside the Db2 engine, which is not
part of src; following section 4.3 of the spec it returns the stored
(content, distance) rows sorted by ascending distance, cut to the first k.
Squared Euclidean distance over ℚ stands in for the FLOAT32 Euclidean
distance: the square root is monotone, so the resulting order is the same. -/
def top_k_by_distance (records : List (List Char × List ℚ)) (q : List ℚ)
    (k : Nat) : List (List Char × ℚ) :=
  (List.insertionSort (fun a b => a.2 ≤ b.2)
    (records.map fun r => (r.1, sqDist q r.2))).take k

/-- Raw sentence texts with surrounding whitespace and one whitespace-only
entry, to exercise the strip/filter preprocessing. -/
def rawC10 : List (List Char) :=
  List.replicate 5 ("  word word word word. ".toList) ++ ["   ".toList]

theorem pyWordsAux_sep (b : List Char) : ∀ (a acc : List Char),
    pyWordsAux (a ++ ' ' :: b) acc = pyWordsAux a acc ++ pyWordsAux b [] := by
  intro a
  induction a with
  | nil =>
    intro acc
    have hws : (' ').isWhitespace = true := by decide
    by_cases h : acc.isEmpty <;> simp [pyWordsAux, hws, h]
  | cons c a ih =>
    intro acc
    cases hws : c.isWhitespace <;>
      by_cases h : acc.isEmpty <;>
        simp [pyWordsAux, hws, h, ih]

theorem pyWords_sep (a b : List Char) :
    pyWords (a ++ ' ' :: b) = pyWords a ++ pyWords b := pyWordsAux_sep b a []

theorem pyWords_joinSp : ∀ l : List (List Char),
    pyWords (joinSp l) = (l.map pyWords).flatten := by
  intro l
  induction l with
  | nil => rfl
  | cons s rest ih =>
    cases rest with
    | nil => simp [joinSp]
    | cons t rest2 =>
      show pyWords (s ++ ' ' :: joinSp (t :: rest2)) = _
      rw [pyWords_sep, ih]
      simp

theorem wordCount_joinSp (l : List (List Char)) : wordCount (joinSp l) = sumW l := by
  unfold wordCount sumW
  rw [pyWords_joinSp, List.length_flatten, List.map_map]
  rfl

theorem sumW_cons (s : List Char) (l : List (List Char)) :
    sumW (s :: l) = wordCount s + sumW l := by simp [sumW]

theorem sumW_append (l₁ l₂ : List (List Char)) :
    sumW (l₁ ++ l₂) = sumW l₁ + sumW l₂ := by simp [sumW]

theorem overlapRevAux_sum (ow : Nat) : ∀ (l ov : List (List Char)) (len : Nat),
    len = sumW ov →
    (overlapRevAux ow l ov len).2 = sumW (overlapRevAux ow l ov len).1 := by
  intro l
  induction l with
  | nil => intro ov len h; simpa [overlapRevAux] using h
  | cons s rest ih =>
    intro ov len h
    simp only [overlapRevAux]
    split
    · exact ih (s :: ov) (len + wordCount s) (by rw [sumW_cons, h, Nat.add_comm])
    · simpa using h

theorem overlapOf_sum (ow : Nat) (cur : List (List Char)) :
    (overlapOf ow cur).2 = sumW (overlapOf ow cur).1 :=
  overlapRevAux_sum ow cur.reverse [] 0 (by simp [sumW])

theorem overlapRevAux_take (ow : Nat) : ∀ (l ov : List (List Char)) (len : Nat),
    ∃ k, (overlapRevAux ow l ov len).1 = (l.take k).reverse ++ ov := by
  intro l
  induction l with
  | nil => intro ov len; exact ⟨0, rfl⟩
  | cons s rest ih =>
    intro ov len
    simp only [overlapRevAux]
    split
    · obtain ⟨k, hk⟩ := ih (s :: ov) (len + wordCount s)
      exact ⟨k + 1, by simp [hk]⟩
    · exact ⟨0, rfl⟩

theorem overlapOf_suffix (ow : Nat) (cur : List (List Char)) :
    ∃ p, p ++ (overlapOf ow cur).1 = cur := by
  obtain ⟨k, hk⟩ := overlapRevAux_take ow cur.reverse [] 0
  refine ⟨(cur.reverse.drop k).reverse, ?_⟩
  simp only [overlapOf] at hk ⊢
  rw [hk, List.append_nil, ← List.reverse_append, List.take_append_drop,
    List.reverse_reverse]

theorem overlapRevAux_ge (ow : Nat) : ∀ (l ov : List (List Char)) (len : Nat),
    ow ≤ (overlapRevAux ow l ov len).2 ∨
      (overlapRevAux ow l ov len).1 = l.reverse ++ ov := by
  intro l
  induction l with
  | nil => intro ov len; right; simp [overlapRevAux]
  | cons s rest ih =>
    intro ov len
    simp only [overlapRevAux]
    split
    · rcases ih (s :: ov) (len + wordCount s) with h | h
      · exact Or.inl h
      · right; rw [h]; simp
    · left; simpa using Nat.le_of_not_lt (by assumption)

theorem overlapOf_ge (ow : Nat) (cur : List (List Char)) :
    ow ≤ (overlapOf ow cur).2 ∨ (overlapOf ow cur).1 = cur := by
  rcases overlapRevAux_ge ow cur.reverse [] 0 with h | h
  · exact Or.inl h
  · right; rw [overlapOf, h]; simp

theorem overlapOf_sum_le (ow : Nat) (cur : List (List Char)) :
    (overlapOf ow cur).2 ≤ sumW cur := by
  obtain ⟨p, hp⟩ := overlapOf_suffix ow cur
  rw [overlapOf_sum]
  calc sumW (overlapOf ow cur).1 ≤ sumW p + sumW (overlapOf ow cur).1 :=
        Nat.le_add_left _ _
    _ = sumW (p ++ (overlapOf ow cur).1) := (sumW_append _ _).symm
    _ = sumW cur := by rw [hp]

example : pyWords "word word word word.".toList =
    ["word".toList, "word".toList, "word".toList, "word.".toList] := by decide
example : wordCount "word word word word.".toList = 4 := by decide
example : overlapping_sentence_chunker
    (List.replicate 5 "word word word word.".toList) 10 3 20 =
    some (List.replicate 4 (joinSp ["word word word word.".toList,
      "word word word word.".toList])) := by decide
example : chunkerS (List.replicate 5 "word word word word.".toList) 10 3 20 =
    some (List.replicate 4 ["word word word word.".toList,
      "word word word word.".toList]) := by decide
example : overlapping_sentence_chunker
    ["a a a a a a a a".toList, "b b b b b".toList] 10 3 50 = none := by decide

theorem chunkerLoop_nil (maxW ow fuel : Nat) (chunks cur : List (List Char))
    (curLen : Nat) :
    chunkerLoop maxW ow fuel [] chunks cur curLen =
      some (if cur.isEmpty then chunks else chunks ++ [joinSp cur]) := by
  cases fuel <;> rfl

theorem chunkerLoop_zero (maxW ow : Nat) (s : List Char)
    (rest chunks cur : List (List Char)) (curLen : Nat) :
    chunkerLoop maxW ow 0 (s :: rest) chunks cur curLen = none := rfl

theorem chunkerLoop_succ (maxW ow fuel : Nat) (s : List Char)
    (rest chunks cur : List (List Char)) (curLen : Nat) :
    chunkerLoop maxW ow (fuel + 1) (s :: rest) chunks cur curLen =
      if curLen + wordCount s ≤ maxW then
        chunkerLoop maxW ow fuel rest chunks (cur ++ [s]) (curLen + wordCount s)
      else
        chunkerLoop maxW ow fuel (s :: rest) (chunks ++ [joinSp cur])
          (overlapOf ow cur).1 (overlapOf ow cur).2 := rfl

theorem chunkerLoopS_nil (maxW ow fuel : Nat) (chunks : List (List (List Char)))
    (cur : List (List Char)) (curLen : Nat) :
    chunkerLoopS maxW ow fuel [] chunks cur curLen =
      some (if cur.isEmpty then chunks else chunks ++ [cur]) := by
  cases fuel <;> rfl

theorem chunkerLoopS_zero (maxW ow : Nat) (s : List Char)
    (rest : List (List Char)) (chunks : List (List (List Char)))
    (cur : List (List Char)) (curLen : Nat) :
    chunkerLoopS maxW ow 0 (s :: rest) chunks cur curLen = none := rfl

theorem chunkerLoopS_succ (maxW ow fuel : Nat) (s : List Char)
    (rest : List (List Char)) (chunks : List (List (List Char)))
    (cur : List (List Char)) (curLen : Nat) :
    chunkerLoopS maxW ow (fuel + 1) (s :: rest) chunks cur curLen =
      if curLen + wordCount s ≤ maxW then
        chunkerLoopS maxW ow fuel rest chunks (cur ++ [s]) (curLen + wordCount s)
      else
        chunkerLoopS maxW ow fuel (s :: rest) (chunks ++ [cur])
          (overlapOf ow cur).1 (overlapOf ow cur).2 := rfl

theorem flush_words_le {maxW : Nat} {chunks cur : List (List Char)}
    (hcur : sumW cur ≤ maxW) (hch : ∀ c ∈ chunks, wordCount c ≤ maxW) :
    ∀ c ∈ (if cur.isEmpty then chunks else chunks ++ [joinSp cur]),
      wordCount c ≤ maxW := by
  intro c hc
  split at hc
  · exact hch c hc
  · rcases List.mem_append.mp hc with h | h
    · exact hch c h
    · rw [List.mem_singleton.mp h, wordCount_joinSp]
      exact hcur

theorem chunkerLoop_words_le (maxW ow : Nat) : ∀ (fuel : Nat)
    {rem chunks cur : List (List Char)} {curLen : Nat},
    curLen = sumW cur → curLen ≤ maxW → (∀ c ∈ chunks, wordCount c ≤ maxW) →
    ∀ {out : List (List Char)},
    chunkerLoop maxW ow fuel rem chunks cur curLen = some out →
    ∀ c ∈ out, wordCount c ≤ maxW := by
  intro fuel
  induction fuel with
  | zero =>
    intro rem chunks cur curLen hsum hle hch out hout
    cases rem with
    | nil =>
      rw [chunkerLoop_nil] at hout
      obtain rfl := Option.some.inj hout
      exact flush_words_le (hsum ▸ hle) hch
    | cons s rest => simp [chunkerLoop_zero] at hout
  | succ n ih =>
    intro rem chunks cur curLen hsum hle hch out hout
    cases rem with
    | nil =>
      rw [chunkerLoop_nil] at hout
      obtain rfl := Option.some.inj hout
      exact flush_words_le (hsum ▸ hle) hch
    | cons s rest =>
      rw [chunkerLoop_succ] at hout
      split at hout
      · rename_i hfit
        exact ih (by rw [hsum, sumW_append]; simp [sumW]) hfit hch hout
      · refine ih (overlapOf_sum ow cur)
          (le_trans (overlapOf_sum_le ow cur) (hsum ▸ hle)) ?_ hout
        intro c hc
        rcases List.mem_append.mp hc with h | h
        · exact hch c h
        · rw [List.mem_singleton.mp h, wordCount_joinSp]
          exact hsum ▸ hle

/-- C1: for every sentence sequence and parameters with overlap_words <
max_words, every chunk of a terminating run of overlapping_sentence_chunker
has word count at most max_words.  A terminating run never produces an
oversized single-sentence chunk, so the exception the claim allows is never
exercised and the plain bound holds. -/
theorem C1_chunk_words_le (sentences : List (List Char)) (maxW ow fuel : Nat)
    (how : ow < maxW) (out : List (List Char))
    (hrun : overlapping_sentence_chunker sentences maxW ow fuel = some out) :
    ∀ c ∈ out, wordCount c ≤ maxW :=
  chunkerLoop_words_le maxW ow fuel rfl (Nat.zero_le _)
    (by intro c hc; cases hc) hrun

/-- Witness for C1: the bound instantiated on the concrete five-sentence
document with max_words 10 and overlap_words 3. -/
theorem C1_chunk_words_le_witness : wordCount (joinSp [sWord, sWord]) ≤ 10 :=
  C1_chunk_words_le exC6 10 3 20 (by decide)
    (List.replicate 4 (joinSp [sWord, sWord])) (by decide)
    (joinSp [sWord, sWord]) (by decide)

theorem chunkerLoop_mono (maxW ow : Nat) : ∀ (f g : Nat)
    {rem chunks cur : List (List Char)} {curLen : Nat} {out : List (List Char)},
    f ≤ g → chunkerLoop maxW ow f rem chunks cur curLen = some out →
    chunkerLoop maxW ow g rem chunks cur curLen = some out := by
  intro f
  induction f with
  | zero =>
    intro g rem chunks cur curLen out hfg h
    cases rem with
    | nil => rw [chunkerLoop_nil] at h ⊢; exact h
    | cons s rest => simp [chunkerLoop_zero] at h
  | succ n ih =>
    intro g rem chunks cur curLen out hfg h
    cases rem with
    | nil => rw [chunkerLoop_nil] at h ⊢; exact h
    | cons s rest =>
      obtain ⟨g₂, rfl⟩ : ∃ g₂, g = g₂ + 1 := ⟨g - 1, by omega⟩
      rw [chunkerLoop_succ] at h ⊢
      split at h <;> rename_i hc
      · rw [if_pos hc]; exact ih g₂ (by omega) h
      · rw [if_neg hc]; exact ih g₂ (by omega) h

/-- C7: chunking is deterministic.  The embedding is a pure function of the
sentence sequence and the parameters, and the fuel only bounds the number of
loop iterations: any two runs that both finish return the same chunk
sequence, whatever their fuels. -/
theorem C7_deterministic (sentences : List (List Char)) (maxW ow f₁ f₂ : Nat)
    (out₁ out₂ : List (List Char))
    (h₁ : overlapping_sentence_chunker sentences maxW ow f₁ = some out₁)
    (h₂ : overlapping_sentence_chunker sentences maxW ow f₂ = some out₂) :
    out₁ = out₂ := by
  rcases Nat.le_total f₁ f₂ with h | h
  · exact Option.some.inj ((chunkerLoop_mono maxW ow f₁ f₂ h h₁).symm.trans h₂)
  · exact (Option.some.inj ((chunkerLoop_mono maxW ow f₂ f₁ h h₂).symm.trans h₁)).symm

/-- Witness for C7: two runs on the concrete five-sentence document with
different fuels return the same chunk list. -/
theorem C7_deterministic_witness :
    List.replicate 4 (joinSp [sWord, sWord]) =
      List.replicate 4 (joinSp [sWord, sWord]) :=
  C7_deterministic exC6 10 3 20 25 _ _ (by decide) (by decide)

theorem chunkerLoop_exC2_stuck : ∀ (fuel : Nat) (chunks : List (List Char)),
    chunkerLoop 10 3 fuel [sB] chunks [sA] 8 = none := by
  intro fuel
  induction fuel with
  | zero => intro chunks; rfl
  | succ n ih =>
    intro chunks
    rw [chunkerLoop_succ]
    have h5 : wordCount sB = 5 := by decide
    rw [h5, if_neg (by omega)]
    have hov : overlapOf 3 [sA] = ([sA], 8) := by decide
    rw [hov]
    exact ih _

/-- C2 (the code is wrong): on the two ordinary sentences of 8 and 5 words
with max_words = 10 and overlap_words = 3 < 10, the loop closes the buffer
[sA], reseeds the buffer with the same sentence sA (its 8 words already meet
the overlap target of 3) and retries sB against it forever: the run returns
no result at any fuel, instead of terminating with at least one chunk. -/
theorem C2_diverges : divergesOn exC2 10 3 := by
  intro fuel
  cases fuel with
  | zero => rfl
  | succ n =>
    show chunkerLoop 10 3 (n + 1) [sA, sB] [] [] 0 = none
    rw [chunkerLoop_succ]
    have h8 : wordCount sA = 8 := by decide
    rw [h8, if_pos (by omega)]
    exact chunkerLoop_exC2_stuck n []

theorem chunkerLoop_oversized_none (maxW ow : Nat) : ∀ (fuel : Nat)
    {rem chunks cur : List (List Char)} {curLen : Nat},
    (∃ s ∈ rem, maxW < wordCount s) →
    chunkerLoop maxW ow fuel rem chunks cur curLen = none := by
  intro fuel
  induction fuel with
  | zero =>
    intro rem chunks cur curLen hex
    obtain ⟨s, hs, hbig⟩ := hex
    cases rem with
    | nil => cases hs
    | cons t rest => exact chunkerLoop_zero maxW ow t rest chunks cur curLen
  | succ n ih =>
    intro rem chunks cur curLen hex
    obtain ⟨s, hs, hbig⟩ := hex
    cases rem with
    | nil => cases hs
    | cons t rest =>
      rw [chunkerLoop_succ]
      split
      · rename_i hfit
        refine ih ⟨s, ?_, hbig⟩
        rcases List.mem_cons.mp hs with rfl | h
        · exact absurd hbig (by omega)
        · exact h
      · exact ih ⟨s, hs, hbig⟩

/-- C3 (the code is wrong): whenever some sentence alone exceeds max_words,
the sentence can never be appended to the buffer (the fit test fails against
every buffer, including the empty one), so the loop re-emits and reseeds
forever and the chunker never terminates — the oversized sentence does not
become its own one-sentence chunk. -/
theorem C3_oversized_diverges (sentences : List (List Char)) (maxW ow : Nat)
    (h : ∃ s ∈ sentences, maxW < wordCount s) :
    divergesOn sentences maxW ow :=
  fun fuel => chunkerLoop_oversized_none maxW ow fuel h

theorem wordCount_bigSentence : wordCount bigSentence = 500 := by
  rw [bigSentence, wordCount_joinSp, sumW, List.map_replicate]
  have h1 : wordCount ['w'] = 1 := by decide
  rw [h1, List.sum_replicate, smul_eq_mul, Nat.mul_one]

/-- Witness for C3: the single 500-word sentence with max_words = 200 and
overlap_words = 50 from the spec, on which the run diverges. -/
theorem C3_oversized_diverges_witness : divergesOn exC3 200 50 :=
  C3_oversized_diverges exC3 200 50
    ⟨bigSentence, by simp [exC3], by rw [wordCount_bigSentence]; omega⟩

theorem chunkerLoop_eq_mapS (maxW ow : Nat) : ∀ (fuel : Nat)
    (rem : List (List Char)) (chunksS : List (List (List Char)))
    (cur : List (List Char)) (curLen : Nat),
    chunkerLoop maxW ow fuel rem (chunksS.map joinSp) cur curLen =
      (chunkerLoopS maxW ow fuel rem chunksS cur curLen).map (List.map joinSp) := by
  intro fuel
  induction fuel with
  | zero =>
    intro rem chunksS cur curLen
    cases rem with
    | nil =>
      rw [chunkerLoop_nil, chunkerLoopS_nil]
      by_cases h : cur.isEmpty <;> simp [h]
    | cons s rest => rfl
  | succ n ih =>
    intro rem chunksS cur curLen
    cases rem with
    | nil =>
      rw [chunkerLoop_nil, chunkerLoopS_nil]
      by_cases h : cur.isEmpty <;> simp [h]
    | cons s rest =>
      rw [chunkerLoop_succ, chunkerLoopS_succ]
      split
      · exact ih rest chunksS (cur ++ [s]) _
      · have h2 := ih (s :: rest) (chunksS ++ [cur]) (overlapOf ow cur).1
          (overlapOf ow cur).2
        simpa using h2

theorem chunker_eq_mapS (sentences : List (List Char)) (maxW ow fuel : Nat) :
    overlapping_sentence_chunker sentences maxW ow fuel =
      (chunkerS sentences maxW ow fuel).map (List.map joinSp) :=
  chunkerLoop_eq_mapS maxW ow fuel sentences [] [] 0

theorem chunkerLoopS_acc_le (maxW ow : Nat) : ∀ (fuel : Nat)
    {rem : List (List Char)} {chunks : List (List (List Char))}
    {cur : List (List Char)} {curLen : Nat} {outS : List (List (List Char))},
    chunkerLoopS maxW ow fuel rem chunks cur curLen = some outS →
    ∃ t, chunks ++ t = outS := by
  intro fuel
  induction fuel with
  | zero =>
    intro rem chunks cur curLen outS h
    cases rem with
    | nil =>
      rw [chunkerLoopS_nil] at h
      obtain rfl := Option.some.inj h
      split
      · exact ⟨[], by simp⟩
      · exact ⟨[cur], rfl⟩
    | cons s rest => simp [chunkerLoopS_zero] at h
  | succ n ih =>
    intro rem chunks cur curLen outS h
    cases rem with
    | nil =>
      rw [chunkerLoopS_nil] at h
      obtain rfl := Option.some.inj h
      split
      · exact ⟨[], by simp⟩
      · exact ⟨[cur], rfl⟩
    | cons s rest =>
      rw [chunkerLoopS_succ] at h
      split at h
      · exact ih h
      · obtain ⟨t, ht⟩ := ih h
        exact ⟨cur :: t, by rw [← ht]; simp⟩

theorem chunkerLoopS_covers (maxW ow : Nat) : ∀ (fuel : Nat)
    {rem : List (List Char)} {chunks : List (List (List Char))}
    {cur : List (List Char)} {curLen : Nat} {outS : List (List (List Char))},
    chunkerLoopS maxW ow fuel rem chunks cur curLen = some outS →
    ∀ s : List Char, s ∈ rem ∨ s ∈ cur → ∃ c ∈ outS, s ∈ c := by
  intro fuel
  induction fuel with
  | zero =>
    intro rem chunks cur curLen outS h s hs
    cases rem with
    | nil =>
      rw [chunkerLoopS_nil] at h
      obtain rfl := Option.some.inj h
      rcases hs with hs | hs
      · cases hs
      · have hne : cur.isEmpty = false := by
          cases hcur : cur.isEmpty
          · rfl
          · rw [List.isEmpty_iff.mp hcur] at hs; cases hs
        rw [hne]
        exact ⟨cur, by simp, hs⟩
    | cons t rest => simp [chunkerLoopS_zero] at h
  | succ n ih =>
    intro rem chunks cur curLen outS h s hs
    cases rem with
    | nil =>
      rw [chunkerLoopS_nil] at h
      obtain rfl := Option.some.inj h
      rcases hs with hs | hs
      · cases hs
      · have hne : cur.isEmpty = false := by
          cases hcur : cur.isEmpty
          · rfl
          · rw [List.isEmpty_iff.mp hcur] at hs; cases hs
        rw [hne]
        exact ⟨cur, by simp, hs⟩
    | cons t rest =>
      rw [chunkerLoopS_succ] at h
      split at h
      · refine ih h s ?_
        rcases hs with hs | hs
        · rcases List.mem_cons.mp hs with rfl | hmem
          · exact Or.inr (by simp)
          · exact Or.inl hmem
        · exact Or.inr (by simp [hs])
      · rcases hs with hs | hs
        · exact ih h s (Or.inl hs)
        · obtain ⟨tl, htl⟩ := chunkerLoopS_acc_le maxW ow n h
          exact ⟨cur, by rw [← htl]; simp, hs⟩

theorem mem_joinSp_sub : ∀ {c : List (List Char)} {s : List Char},
    s ∈ c → s <:+: joinSp c := by
  intro c
  induction c with
  | nil => intro s hs; cases hs
  | cons t rest ih =>
    intro s hs
    rcases List.mem_cons.mp hs with rfl | h
    · cases rest with
      | nil => exact ⟨[], [], by simp [joinSp]⟩
      | cons u rest2 => exact ⟨[], ' ' :: joinSp (u :: rest2), by simp [joinSp]⟩
    · cases rest with
      | nil => cases h
      | cons u rest2 =>
        obtain ⟨p, q, hpq⟩ := ih h
        refine ⟨t ++ ' ' :: p, q, ?_⟩
        have hj : joinSp (t :: u :: rest2) = t ++ ' ' :: joinSp (u :: rest2) := rfl
        rw [hj, ← hpq]
        simp

/-- C5: on every sentence sequence on which overlapping_sentence_chunker
terminates, every sentence of the input appears verbatim (as a contiguous
character block) in at least one output chunk; no sentence is dropped. -/
theorem C5_no_sentence_dropped (sentences : List (List Char)) (maxW ow fuel : Nat)
    (out : List (List Char))
    (hrun : overlapping_sentence_chunker sentences maxW ow fuel = some out) :
    ∀ s ∈ sentences, ∃ c ∈ out, s <:+: c := by
  rw [chunker_eq_mapS] at hrun
  obtain ⟨outS, hS, rfl⟩ := Option.map_eq_some'.mp hrun
  intro s hs
  obtain ⟨c, hc, hsc⟩ := chunkerLoopS_covers maxW ow fuel hS s (Or.inl hs)
  exact ⟨joinSp c, List.mem_map_of_mem joinSp hc, mem_joinSp_sub hsc⟩

/-- Witness for C5: on the concrete five-sentence document, the sentence
appears inside one of the four returned chunks. -/
theorem C5_no_sentence_dropped_witness :
    ∃ c ∈ List.replicate 4 (joinSp [sWord, sWord]), sWord <:+: c :=
  C5_no_sentence_dropped exC6 10 3 20 _ (by decide) sWord (by decide)

theorem pairOK_extend {ow : Nat} {c₁ c₂ : List (List Char)} (l : List (List Char))
    (h : pairOK ow c₁ c₂) : pairOK ow c₁ (c₂ ++ l) := by
  obtain ⟨ov, hsuf, ⟨t, ht⟩, hor⟩ := h
  exact ⟨ov, hsuf, ⟨t ++ l, by rw [← ht]; simp⟩, hor⟩

theorem pairOK_overlap (ow : Nat) (cur : List (List Char)) :
    pairOK ow cur (overlapOf ow cur).1 := by
  obtain ⟨p, hp⟩ := overlapOf_suffix ow cur
  refine ⟨(overlapOf ow cur).1, ⟨p, hp⟩, ⟨[], by simp⟩, ?_⟩
  rcases overlapOf_ge ow cur with h | h
  · left; rw [← overlapOf_sum]; exact h
  · right; exact h

theorem chunkerLoopS_chain (maxW ow : Nat) : ∀ (fuel : Nat)
    {rem : List (List Char)} {chunks : List (List (List Char))}
    {cur : List (List Char)} {curLen : Nat} {outS : List (List (List Char))},
    List.Chain' (pairOK ow) chunks →
    (∀ last ∈ chunks.getLast?, pairOK ow last cur) →
    chunkerLoopS maxW ow fuel rem chunks cur curLen = some outS →
    List.Chain' (pairOK ow) outS := by
  intro fuel
  induction fuel with
  | zero =>
    intro rem chunks cur curLen outS hch hlast h
    cases rem with
    | nil =>
      rw [chunkerLoopS_nil] at h
      obtain rfl := Option.some.inj h
      split
      · exact hch
      · refine List.chain'_append.mpr ⟨hch, List.chain'_singleton cur, ?_⟩
        intro x hx y hy
        simp only [List.head?_cons, Option.mem_def, Option.some.injEq] at hy
        rw [← hy]
        exact hlast x hx
    | cons s rest => simp [chunkerLoopS_zero] at h
  | succ n ih =>
    intro rem chunks cur curLen outS hch hlast h
    cases rem with
    | nil =>
      rw [chunkerLoopS_nil] at h
      obtain rfl := Option.some.inj h
      split
      · exact hch
      · refine List.chain'_append.mpr ⟨hch, List.chain'_singleton cur, ?_⟩
        intro x hx y hy
        simp only [List.head?_cons, Option.mem_def, Option.some.injEq] at hy
        rw [← hy]
        exact hlast x hx
    | cons s rest =>
      rw [chunkerLoopS_succ] at h
      split at h
      · exact ih hch (fun last hl => pairOK_extend [s] (hlast last hl)) h
      · refine ih ?_ ?_ h
        · refine List.chain'_append.mpr ⟨hch, List.chain'_singleton cur, ?_⟩
          intro x hx y hy
          simp only [List.head?_cons, Option.mem_def, Option.some.injEq] at hy
          rw [← hy]
          exact hlast x hx
        · intro last hl
          rw [List.getLast?_concat] at hl
          simp only [Option.mem_def, Option.some.injEq] at hl
          rw [hl]
          exact pairOK_overlap ow last

/-- C4: in every terminating run, consecutive chunks are linked by an overlap
block: a suffix of chunk i's sentence list reappears byte-identically as the
leading sentences of chunk i+1, and that block carries at least overlap_words
words, or is all of chunk i when chunk i held fewer than overlap_words words
before the boundary. -/
theorem C4_overlap_chain (sentences : List (List Char)) (maxW ow fuel : Nat)
    (outS : List (List (List Char)))
    (hrun : chunkerS sentences maxW ow fuel = some outS) :
    List.Chain' (pairOK ow) outS :=
  chunkerLoopS_chain maxW ow fuel List.chain'_nil (by intro last hl; cases hl) hrun

/-- Witness for C4: the overlap chain on the four chunks produced from the
concrete five-sentence document. -/
theorem C4_overlap_chain_witness :
    List.Chain' (pairOK 3) (List.replicate 4 [sWord, sWord]) :=
  C4_overlap_chain exC6 10 3 20 _ (by decide)

/-- C6: on the concrete document of five sentences S1..S5, each the four-word
string S, with max_words = 10 and overlap_words = 3, the chunker returns four
chunks; the first buffer is [S1, S2] joined into one 8-word string, and the
second chunk starts with the overlap sentence S2 followed by S3 (all
sentences are the same string S, so every chunk is the join of two copies
of S). -/
theorem C6_concrete_chunks :
    chunkerS exC6 10 3 20 =
      some [[sWord, sWord], [sWord, sWord], [sWord, sWord], [sWord, sWord]] ∧
    overlapping_sentence_chunker exC6 10 3 20 =
      some [joinSp [sWord, sWord], joinSp [sWord, sWord],
        joinSp [sWord, sWord], joinSp [sWord, sWord]] ∧
    wordCount (joinSp [sWord, sWord]) = 8 :=
  ⟨by decide, by decide, by decide⟩

/-- C8: a (chunk, embedding) pair is kept for insertion exactly when the
embedding is present, non-empty and of length 384; a missing or wrong-length
embedding only drops that one row, and the remaining rows are still
processed. -/
theorem C8_values_filter :
    (∀ (text : List Char) (e : List ℚ) (rest : List (List Char × Option (List ℚ))),
      ¬ e.isEmpty → e.length = 384 →
      buildValues ((text, some e) :: rest) = (text, e) :: buildValues rest) ∧
    (∀ (text : List Char) (e : List ℚ) (rest : List (List Char × Option (List ℚ))),
      e.length ≠ 384 →
      buildValues ((text, some e) :: rest) = buildValues rest) ∧
    (∀ (text : List Char) (rest : List (List Char × Option (List ℚ))),
      buildValues ((text, none) :: rest) = buildValues rest) := by
  refine ⟨?_, ?_, ?_⟩
  · intro text e rest he hlen
    simp [buildValues, he, hlen]
  · intro text e rest hlen
    simp [buildValues, hlen]
  · intro text rest
    rfl

/-- Witness for C8: in a batch of three rows, the 384-long row is kept, the
1-long row and the missing row are skipped, and the batch does not fail. -/
theorem C8_values_filter_witness :
    buildValues [("c1".toList, some (List.replicate 384 (0:ℚ))),
        ("c2".toList, some [(1:ℚ)]), ("c3".toList, none)] =
      [("c1".toList, List.replicate 384 (0:ℚ))] := by
  rw [C8_values_filter.1 _ _ _ (by rw [List.isEmpty_replicate]; decide)
      (by rw [List.length_replicate]),
    C8_values_filter.2.1 _ _ _ (by simp), C8_values_filter.2.2]
  rfl

/-- C9: retrieval returns the stored rows ordered by non-decreasing distance
to the query vector, and returns at most k rows and at most the number of
stored records. -/
theorem C9_top_k_sorted_bounded (records : List (List Char × List ℚ))
    (q : List ℚ) (k : Nat) :
    List.Sorted (fun a b : List Char × ℚ => a.2 ≤ b.2)
      (top_k_by_distance records q k) ∧
    (top_k_by_distance records q k).length ≤ k ∧
    (top_k_by_distance records q k).length ≤ records.length := by
  refine ⟨?_, ?_, ?_⟩
  · haveI h₁ : IsTotal (List Char × ℚ) (fun a b => a.2 ≤ b.2) :=
      ⟨fun a b => le_total a.2 b.2⟩
    haveI h₂ : IsTrans (List Char × ℚ) (fun a b => a.2 ≤ b.2) :=
      ⟨fun _ _ _ hab hbc => le_trans hab hbc⟩
    exact List.Pairwise.sublist (List.take_sublist _ _)
      (List.sorted_insertionSort _ _)
  · simp only [top_k_by_distance, List.length_take]
    exact min_le_left _ _
  · simp only [top_k_by_distance, List.length_take, List.length_insertionSort,
      List.length_map]
    exact min_le_right _ _

theorem SlicesFrom_mono (sents : List (List Char)) :
    ∀ (l : List (List (List Char))) (lb lb₂ : Nat), lb₂ ≤ lb →
    SlicesFrom sents l lb → SlicesFrom sents l lb₂ := by
  intro l
  cases l with
  | nil => intro lb lb₂ h hs; trivial
  | cons c rest =>
    intro lb lb₂ h hs
    obtain ⟨a, ha, hc, hrest⟩ := hs
    exact ⟨a, le_trans h ha, hc, hrest⟩

theorem slice_of_split {sents pre cur rest : List (List Char)}
    (h : sents = pre ++ cur ++ rest) :
    cur = (sents.drop pre.length).take cur.length := by
  subst h
  rw [List.append_assoc, List.drop_left, List.take_left]

theorem chunkerLoopS_slices (maxW ow : Nat) (sents : List (List Char)) :
    ∀ (fuel : Nat) (rem done : List (List Char))
    (chunks : List (List (List Char))) (cur : List (List Char)) (curLen : Nat),
    sents = done ++ rem → (∃ p, p ++ cur = done) →
    ∀ {outS : List (List (List Char))},
    chunkerLoopS maxW ow fuel rem chunks cur curLen = some outS →
    ∃ future, outS = chunks ++ future ∧
      SlicesFrom sents future (done.length - cur.length) := by
  intro fuel
  induction fuel with
  | zero =>
    intro rem done chunks cur curLen hsplit hsuf outS h
    cases rem with
    | nil =>
      rw [chunkerLoopS_nil] at h
      obtain rfl := Option.some.inj h
      split
      · exact ⟨[], by simp, trivial⟩
      · refine ⟨[cur], rfl, ?_⟩
        obtain ⟨p, hp⟩ := hsuf
        refine ⟨done.length - cur.length, le_refl _, ?_, trivial⟩
        have hlen : done.length - cur.length = p.length := by
          rw [← hp]; simp
        rw [hlen]
        exact slice_of_split (by rw [hsplit, ← hp])
    | cons s rest => simp [chunkerLoopS_zero] at h
  | succ n ih =>
    intro rem done chunks cur curLen hsplit hsuf outS h
    cases rem with
    | nil =>
      rw [chunkerLoopS_nil] at h
      obtain rfl := Option.some.inj h
      split
      · exact ⟨[], by simp, trivial⟩
      · refine ⟨[cur], rfl, ?_⟩
        obtain ⟨p, hp⟩ := hsuf
        refine ⟨done.length - cur.length, le_refl _, ?_, trivial⟩
        have hlen : done.length - cur.length = p.length := by
          rw [← hp]; simp
        rw [hlen]
        exact slice_of_split (by rw [hsplit, ← hp])
    | cons s rest =>
      rw [chunkerLoopS_succ] at h
      split at h
      · have hsplit₂ : sents = (done ++ [s]) ++ rest := by rw [hsplit]; simp
        have hsuf₂ : ∃ p, p ++ (cur ++ [s]) = done ++ [s] := by
          obtain ⟨p, hp⟩ := hsuf
          exact ⟨p, by rw [← hp]; simp⟩
        obtain ⟨future, hout, hsl⟩ :=
          ih rest (done ++ [s]) chunks (cur ++ [s]) _ hsplit₂ hsuf₂ h
        refine ⟨future, hout, ?_⟩
        have hlen₂ : (done ++ [s]).length - (cur ++ [s]).length =
            done.length - cur.length := by
          simp only [List.length_append, List.length_cons, List.length_nil]
          omega
        rwa [hlen₂] at hsl
      · have hsuf₂ : ∃ p, p ++ (overlapOf ow cur).1 = done := by
          obtain ⟨p, hp⟩ := hsuf
          obtain ⟨p₂, hp₂⟩ := overlapOf_suffix ow cur
          exact ⟨p ++ p₂, by rw [List.append_assoc, hp₂, hp]⟩
        obtain ⟨future, hout, hsl⟩ :=
          ih (s :: rest) done (chunks ++ [cur]) (overlapOf ow cur).1 _ hsplit hsuf₂ h
        refine ⟨cur :: future, by rw [hout]; simp, ?_⟩
        obtain ⟨p, hp⟩ := hsuf
        refine ⟨done.length - cur.length, le_refl _, ?_, ?_⟩
        · have hlen : done.length - cur.length = p.length := by
            rw [← hp]; simp
          rw [hlen]
          exact slice_of_split (by rw [hsplit, ← hp])
        · refine SlicesFrom_mono sents future _ _ ?_ hsl
          have hovlen : (overlapOf ow cur).1.length ≤ cur.length := by
            obtain ⟨p₂, hp₂⟩ := overlapOf_suffix ow cur
            calc (overlapOf ow cur).1.length
                ≤ p₂.length + (overlapOf ow cur).1.length := Nat.le_add_left _ _
              _ = (p₂ ++ (overlapOf ow cur).1).length := (List.length_append _ _).symm
              _ = cur.length := by rw [hp₂]
          exact Nat.sub_le_sub_left hovlen done.length

/-- C10: every chunk emitted by overlapping_sentence_chunker is the
single-space join of a contiguous slice of the trimmed, non-empty sentence
list; the slices' start positions are non-decreasing from one chunk to the
next; and each new buffer's overlap seed is drawn only from the sentences of
the immediately preceding emitted chunk (a suffix of it that reappears as
the leading sentences of the next chunk). -/
theorem C10_chunks_are_ordered_slices (raw : List (List Char))
    (maxW ow fuel : Nat) (out : List (List Char))
    (hrun : overlapping_sentence_chunker (preprocess raw) maxW ow fuel = some out) :
    ∃ outS : List (List (List Char)),
      out = outS.map joinSp ∧
      SlicesFrom (preprocess raw) outS 0 ∧
      List.Chain' (fun c₁ c₂ => ∃ ov, ov <:+ c₁ ∧ ov <+: c₂) outS := by
  rw [chunker_eq_mapS] at hrun
  obtain ⟨outS, hS, rfl⟩ := Option.map_eq_some'.mp hrun
  refine ⟨outS, rfl, ?_, ?_⟩
  · obtain ⟨future, hout, hsl⟩ := chunkerLoopS_slices maxW ow (preprocess raw)
      fuel (preprocess raw) [] [] [] 0 rfl ⟨[], rfl⟩ hS
    have h0 : outS = future := by simpa using hout
    rw [h0]
    simpa using hsl
  · have hch := chunkerLoopS_chain maxW ow fuel List.chain'_nil
      (by intro last hl; cases hl) hS
    exact hch.imp (fun a b h => by obtain ⟨ov, h1, h2, _⟩ := h; exact ⟨ov, h1, h2⟩)

/-- Witness for C10: the conclusion instantiated on a raw document whose
sentences carry surrounding whitespace and one whitespace-only entry. -/
theorem C10_chunks_are_ordered_slices_witness :
    ∃ outS : List (List (List Char)),
      List.replicate 4 (joinSp [sWord, sWord]) = outS.map joinSp ∧
      SlicesFrom (preprocess rawC10) outS 0 ∧
      List.Chain' (fun c₁ c₂ => ∃ ov, ov <:+ c₁ ∧ ov <+: c₂) outS :=
  C10_chunks_are_ordered_slices rawC10 10 3 20 _ (by decide)
